import Mathlib

/-!
Verification of the OSRM recursive-bisection partitioner spec against the
sources.  The first part embeds
`src/include/extractor/node_based_graph_to_edge_based_graph_mapping_writer.hpp`;
the second part models the partition components (`BisectionGraph`,
`GraphView`, recursive bisection, the balanced-cut selection) whose headers
are exercised by the unit tests under `src/unit_tests/partition/`.
Machine integers (`NodeID`, `EdgeID`, the `uint64` record counter) are
modelled as `Nat`; none of the verified properties performs arithmetic that
could overflow their 32/64-bit widths in a run the binary format can
represent.
-/

/-- Modelled from the spec: `util/typedefs.hpp` is not among the sources; the
sentinel "special" node ID is the all-ones 32-bit value. -/
def SPECIAL_NODEID : Nat := 2 ^ 32 - 1

/-- Modelled from the spec: sentinel "special" (invalid) edge ID, the
all-ones 32-bit value; marks a traversal direction that does not exist. -/
def SPECIAL_EDGEID : Nat := 2 ^ 32 - 1

/-- Modelled from the spec: the fixed format-fingerprint header value written
by `storage::io::FileWriter::GenerateFingerprint`; its exact value is a
versioned constant, kept abstract here as an arbitrary fixed word. -/
def FINGERPRINT : Nat := 1397244518

/-- State of a `NodeBasedGraphToEdgeBasedGraphMappingWriter` together with its
output stream.  The stream layout `| Fingerprint | #mappings | records.. |`
is modelled as the (patchable) 64-bit count field `count_field` plus the
words `payload` appended after it; `num_written` is the writer's private
`std::uint64_t num_written` counter. -/
structure WriterState where
  count_field : Nat
  payload : List Nat
  num_written : Nat
deriving Repr, DecidableEq

/-- Constructor `NodeBasedGraphToEdgeBasedGraphMappingWriter(path)`: writes
the fingerprint, then `WriteElementCount64(dummy)` with `dummy = 0` as a
placeholder to be filled in later; no records written yet. -/
def newWriter : WriterState := ⟨0, [], 0⟩

/-- `WriteMapping(u, v, head, tail)`: the three `BOOST_ASSERT` preconditions
(`u != SPECIAL_NODEID`, `v != SPECIAL_NODEID`,
`head != SPECIAL_EDGEID || tail != SPECIAL_EDGEID`) are modelled as `none`
(a fatal assertion, not a recoverable error); on success the four IDs are
appended with `WriteOne` and `num_written += 1`. -/
def WriteMapping (s : WriterState) (u v head tail : Nat) : Option WriterState :=
  if u = SPECIAL_NODEID then none
  else if v = SPECIAL_NODEID then none
  else if head = SPECIAL_EDGEID ∧ tail = SPECIAL_EDGEID then none
  else some ⟨s.count_field, s.payload ++ [u, v, head, tail], s.num_written + 1⟩

/-- Destructor `~NodeBasedGraphToEdgeBasedGraphMappingWriter`: if
`num_written != 0`, seek back to the placeholder (`SkipToBeginning`) and
overwrite it with the true count; otherwise leave the stream untouched. -/
def closeWriter (s : WriterState) : WriterState :=
  if s.num_written ≠ 0 then { s with count_field := s.num_written } else s

/-- A mapping record `(u, v, head, tail)`. -/
abbrev MappingRecord := Nat × Nat × Nat × Nat

/-- Run a sequence of `WriteMapping` calls; `none` as soon as one asserts. -/
def writeAll (s : WriterState) : List MappingRecord → Option WriterState
  | [] => some s
  | (u, v, h, t) :: rs =>
    match WriteMapping s u v h t with
    | some s1 => writeAll s1 rs
    | none => none

/-- The words a record sequence contributes to the stream, in field order
`u v head tail`. -/
def flatRecords : List MappingRecord → List Nat
  | [] => []
  | (u, v, h, t) :: rs => u :: v :: h :: t :: flatRecords rs

/-- The full on-disk word sequence: `| Fingerprint | #mappings | records |`. -/
def toFile (s : WriterState) : List Nat := FINGERPRINT :: s.count_field :: s.payload

/-- Modelled from the spec: the counterpart Reader (an external consumer, not
among the sources) reads exactly `count` fixed-size four-word records in
written order. -/
def readRecords : Nat → List Nat → Option (List MappingRecord)
  | 0, _ => some []
  | n + 1, u :: v :: h :: t :: rest =>
    match readRecords n rest with
    | some rs => some ((u, v, h, t) :: rs)
    | none => none
  | _ + 1, _ => none

/-- Modelled from the spec: the Reader checks the fingerprint, reads the
64-bit count, then reads exactly that many records. -/
def readMappingFile : List Nat → Option (Nat × List MappingRecord)
  | fp :: cnt :: rest =>
    if fp = FINGERPRINT then
      match readRecords cnt rest with
      | some rs => some (cnt, rs)
      | none => none
    else none
  | _ => none

theorem writeAll_some {rs : List MappingRecord} {s s1 : WriterState}
    (h : writeAll s rs = some s1) :
    s1.count_field = s.count_field ∧
      s1.payload = s.payload ++ flatRecords rs ∧
      s1.num_written = s.num_written + rs.length := by
  induction rs generalizing s with
  | nil =>
    simp only [writeAll] at h
    cases h
    simp [flatRecords]
  | cons r rs ih =>
    obtain ⟨u, v, hd, tl⟩ := r
    simp only [writeAll] at h
    cases hw : WriteMapping s u v hd tl with
    | none => rw [hw] at h; cases h
    | some s2 =>
      rw [hw] at h
      unfold WriteMapping at hw
      split at hw
      · cases hw
      · split at hw
        · cases hw
        · split at hw
          · cases hw
          · cases hw
            obtain ⟨h1, h2, h3⟩ := ih h
            refine ⟨h1, ?_, ?_⟩
            · rw [h2]; simp [flatRecords]
            · rw [h3]; simp [List.length_cons]; omega

theorem readRecords_flat (rs : List MappingRecord) :
    readRecords rs.length (flatRecords rs) = some rs := by
  induction rs with
  | nil => simp [readRecords, flatRecords]
  | cons r rs ih =>
    obtain ⟨u, v, hd, tl⟩ := r
    simp [flatRecords, readRecords, ih]

/-- C1: over any successful sequence of `WriteMapping` calls, closing the
writer patches the header count field to the exact number of records
written; with zero calls the writer state is left unmodified, so the
placeholder 0 stands and in every case the header count equals the number
of records. -/
theorem close_patches_count (rs : List MappingRecord) (s : WriterState)
    (h : writeAll newWriter rs = some s) :
    (closeWriter s).count_field = rs.length ∧ (rs = [] → closeWriter s = s) := by
  obtain ⟨h1, h2, h3⟩ := writeAll_some h
  simp only [newWriter] at h1 h2 h3
  constructor
  · unfold closeWriter
    by_cases hnz : s.num_written = 0
    · rw [if_neg (by simpa using hnz), h1]
      omega
    · rw [if_pos hnz]
      simpa using h3
  · intro hnil
    subst hnil
    unfold closeWriter
    rw [if_neg (by simp at h3; simp [h3])]

/-- Witness for C1 at one concrete record. -/
theorem close_patches_count_witness :
    (closeWriter ⟨0, [0, 1, 10, SPECIAL_EDGEID], 1⟩).count_field =
        [((0 : Nat), (1 : Nat), (10 : Nat), SPECIAL_EDGEID)].length ∧
      ([((0 : Nat), (1 : Nat), (10 : Nat), SPECIAL_EDGEID)] = ([] : List MappingRecord) →
        closeWriter ⟨0, [0, 1, 10, SPECIAL_EDGEID], 1⟩ = ⟨0, [0, 1, 10, SPECIAL_EDGEID], 1⟩) :=
  close_patches_count [(0, 1, 10, SPECIAL_EDGEID)] ⟨0, [0, 1, 10, SPECIAL_EDGEID], 1⟩ (by decide)

/-- C2: writing any record sequence through `WriteMapping` and closing yields
a stream the Reader decodes back to exactly that sequence, with header
count equal to its length (in particular 3 for the spec's three records and
0 for the empty sequence). -/
theorem mapping_round_trip (rs : List MappingRecord) (s : WriterState)
    (h : writeAll newWriter rs = some s) :
    readMappingFile (toFile (closeWriter s)) = some (rs.length, rs) := by
  obtain ⟨h1, h2, h3⟩ := writeAll_some h
  simp only [newWriter] at h1 h2 h3
  simp only [List.nil_append] at h2
  have hcount : (closeWriter s).count_field = rs.length := by
    unfold closeWriter
    by_cases hnz : s.num_written = 0
    · rw [if_neg (by simpa using hnz), h1]
      omega
    · rw [if_pos hnz]
      simpa using h3
  have hpayload : (closeWriter s).payload = flatRecords rs := by
    unfold closeWriter
    split <;> simpa using h2
  simp [toFile, readMappingFile, hcount, hpayload, readRecords_flat]

/-- Witness for C2: the spec's three records `(0,1,10,INVALID)`,
`(1,2,INVALID,11)`, `(2,3,12,13)` round-trip with count 3, and the empty
sequence round-trips with count 0. -/
theorem mapping_round_trip_witness :
    readMappingFile (toFile (closeWriter
        ⟨0, [0, 1, 10, SPECIAL_EDGEID, 1, 2, SPECIAL_EDGEID, 11, 2, 3, 12, 13], 3⟩)) =
      some (([((0 : Nat), (1 : Nat), (10 : Nat), SPECIAL_EDGEID),
              (1, 2, SPECIAL_EDGEID, 11), (2, 3, 12, 13)]).length,
            [((0 : Nat), (1 : Nat), (10 : Nat), SPECIAL_EDGEID),
              (1, 2, SPECIAL_EDGEID, 11), (2, 3, 12, 13)]) ∧
      readMappingFile (toFile (closeWriter newWriter)) =
        some (([] : List MappingRecord).length, ([] : List MappingRecord)) :=
  ⟨mapping_round_trip
      [(0, 1, 10, SPECIAL_EDGEID), (1, 2, SPECIAL_EDGEID, 11), (2, 3, 12, 13)]
      ⟨0, [0, 1, 10, SPECIAL_EDGEID, 1, 2, SPECIAL_EDGEID, 11, 2, 3, 12, 13], 3⟩ (by decide),
    mapping_round_trip [] newWriter (by decide)⟩

/-- C3: every `WriteMapping` call with `u = SPECIAL_NODEID` fails the
precondition assertion; likewise with `v = SPECIAL_NODEID`, and with both
`head` and `tail` equal to `SPECIAL_EDGEID` — the call is fatal, never a
recoverable success. -/
theorem writeMapping_asserts :
    (∀ (s : WriterState) (v h t : Nat), WriteMapping s SPECIAL_NODEID v h t = none) ∧
      (∀ (s : WriterState) (u h t : Nat), WriteMapping s u SPECIAL_NODEID h t = none) ∧
      (∀ (s : WriterState) (u v : Nat),
        WriteMapping s u v SPECIAL_EDGEID SPECIAL_EDGEID = none) := by
  refine ⟨?_, ?_, ?_⟩ <;> intros <;> unfold WriteMapping
  · simp
  · split
    · rfl
    · simp
  · split
    · rfl
    · split
      · rfl
      · simp

/-- C9: a `WriteMapping` call with valid `u`, `v` and at least one valid
edge direction never asserts: it succeeds (also for self-loops `u = v`,
`head = tail`, or repeated records) and appends the record while increasing
`num_written` by exactly one. -/
theorem writeMapping_succeeds (s : WriterState) (u v head tail : Nat)
    (hu : u ≠ SPECIAL_NODEID) (hv : v ≠ SPECIAL_NODEID)
    (hht : head ≠ SPECIAL_EDGEID ∨ tail ≠ SPECIAL_EDGEID) :
    WriteMapping s u v head tail =
      some ⟨s.count_field, s.payload ++ [u, v, head, tail], s.num_written + 1⟩ := by
  unfold WriteMapping
  rw [if_neg hu, if_neg hv, if_neg ?_]
  rintro ⟨hh, ht⟩
  rcases hht with h | h
  · exact h hh
  · exact h ht

/-- Witness for C9 on a self-loop record with `head = tail`. -/
theorem writeMapping_succeeds_witness :
    WriteMapping newWriter 3 3 7 7 = some ⟨0, [3, 3, 7, 7], 1⟩ :=
  writeMapping_succeeds newWriter 3 3 7 7 (by decide) (by decide) (Or.inl (by decide))

/-- Modelled from the spec: `util/coordinate.hpp` is not among the sources;
OSRM coordinates are fixed-point integers per axis. -/
structure Coordinate where
  lon : Int
  lat : Int
deriving Repr, DecidableEq

/-- The caller edge type of the unit tests: `(source, target)` plus payload
that the adaptation step discards. -/
structure EdgeWithSomeAdditionalData where
  source : Nat
  target : Nat
  important_data : Nat
deriving Repr, DecidableEq

/-- The minimal edge shape a `BisectionGraph` stores. -/
structure BisectionEdge where
  source : Nat
  target : Nat
deriving Repr, DecidableEq

/-- Modelled from the spec: `adaptToBisectionEdge` maps arbitrary caller
edges to the minimal `(source, target)` shape, discarding extra payload. -/
def adaptToBisectionEdge (es : List EdgeWithSomeAdditionalData) : List BisectionEdge :=
  es.map (fun e => ⟨e.source, e.target⟩)

/-- Modelled from the spec: `groupEdgesBySource` establishes the CSR
grouping by a stable sort of the edge list on the source field. -/
def groupEdgesBySource (es : List EdgeWithSomeAdditionalData) :
    List EdgeWithSomeAdditionalData :=
  es.mergeSort (fun a b => a.source ≤ b.source)

/-- Modelled from the spec: a node holds a coordinate and the offset into
the edge array where its outgoing edges start. -/
structure BisectionNode where
  coordinate : Coordinate
  edges_begin : Nat
deriving Repr, DecidableEq

/-- Modelled from the spec: the CSR graph owns the node and edge arrays; the
node array lives at a base address, and node references are addresses into
it (`GetID` recovers the current index by offset arithmetic). -/
structure BisectionGraph where
  base : Nat
  nodes : List BisectionNode
  edges : List BisectionEdge
deriving Repr, DecidableEq

/-- Index of the first edge of node `i` in a source-grouped edge list: the
number of edges whose source precedes `i`. -/
def firstEdgeIndex (es : List BisectionEdge) (i : Nat) : Nat :=
  es.countP (fun e => e.source < i)

/-- Modelled from the spec: `makeBisectionGraph` builds the CSR graph from a
coordinate sequence and a source-grouped minimal edge sequence, computing
each node's edge-start offset. -/
def makeBisectionGraph (coords : List Coordinate) (es : List BisectionEdge) :
    BisectionGraph :=
  ⟨0, coords.enum.map (fun p => ⟨p.2, firstEdgeIndex es p.1⟩), es⟩

/-- `NumberOfNodes()`. -/
def NumberOfNodes (g : BisectionGraph) : Nat := g.nodes.length

/-- Edge-start offset of node `i`, with the sentinel offset (total edge
count) standing in after the last node. -/
def nodeEdgeBegin (g : BisectionGraph) (i : Nat) : Nat :=
  match g.nodes.get? i with
  | some n => n.edges_begin
  | none => g.edges.length

/-- Outgoing edge range of node `i`: the edge-array slice between the
offsets of nodes `i` and `i + 1`.  All of the C++ edge-iteration interfaces
(`Edges(node)`, `Edges(id)`, `BeginEdges`/`EndEdges`) traverse exactly this
slice. -/
def edgesOf (g : BisectionGraph) (i : Nat) : List BisectionEdge :=
  (g.edges.drop (nodeEdgeBegin g i)).take (nodeEdgeBegin g (i + 1) - nodeEdgeBegin g i)

/-- Address of the node slot at index `i` of the owning array. -/
def addrOfIndex (g : BisectionGraph) (i : Nat) : Nat := g.base + i

/-- `GetID(node)`: recover a node's current index from its address by
pointer arithmetic against the owning array's base. -/
def GetID (g : BisectionGraph) (addr : Nat) : Nat := addr - g.base

/-- Node lookup by index. -/
def nodeAt (g : BisectionGraph) (i : Nat) : Option BisectionNode := g.nodes.get? i

/-- Modelled from the spec: the single write epoch of
`RecursiveBisectionState` per split — a stable in-place partition of the
node sub-array `[b, e)` moving nodes chosen by `keepLeft` in front of the
rest; nodes outside the range are untouched. -/
def stablePartitionRange (g : BisectionGraph) (b e : Nat)
    (keepLeft : BisectionNode → Bool) : BisectionGraph :=
  { g with nodes :=
      g.nodes.take b ++
        (((g.nodes.drop b).take (e - b)).filter keepLeft ++
          ((g.nodes.drop b).take (e - b)).filter (fun n => !keepLeft n)) ++
        g.nodes.drop e }

theorem nodeAt_addr_identity (g : BisectionGraph) (i : Nat) (hi : i < g.nodes.length) :
    nodeAt g (GetID g (addrOfIndex g i)) = some (g.nodes.get ⟨i, hi⟩) := by
  have hsub : g.base + i - g.base = i := by omega
  simp [nodeAt, GetID, addrOfIndex, hsub, List.get?_eq_get hi]

/-- C4: for every `BisectionGraph`, node lookup at index `GetID(node)`
returns that same node — both on the graph as constructed and after any
in-place stable-partition reorder of a node sub-array performed by
`RecursiveBisectionState`. -/
theorem getID_lookup_identity (g : BisectionGraph) (b e : Nat)
    (keepLeft : BisectionNode → Bool) :
    (∀ (i : Nat) (hi : i < g.nodes.length),
        nodeAt g (GetID g (addrOfIndex g i)) = some (g.nodes.get ⟨i, hi⟩)) ∧
      (∀ (i : Nat) (hi : i < (stablePartitionRange g b e keepLeft).nodes.length),
        nodeAt (stablePartitionRange g b e keepLeft)
            (GetID (stablePartitionRange g b e keepLeft)
              (addrOfIndex (stablePartitionRange g b e keepLeft) i)) =
          some ((stablePartitionRange g b e keepLeft).nodes.get ⟨i, hi⟩)) :=
  ⟨fun i hi => nodeAt_addr_identity g i hi,
    fun i hi => nodeAt_addr_identity (stablePartitionRange g b e keepLeft) i hi⟩

/-- Concrete graph for the C4 witness: two nodes, no edges. -/
def c4Graph : BisectionGraph :=
  makeBisectionGraph [⟨0, 0⟩, ⟨1, 1⟩] []

/-- Reorder predicate for the C4 witness: keep the second node first. -/
def c4Keep : BisectionNode → Bool := fun n => n.coordinate.lon = 1

/-- Witness for C4: after stable-partitioning the two-node graph, looking up
index `GetID` of the node now at slot 0 returns that node. -/
theorem getID_lookup_identity_witness :
    nodeAt (stablePartitionRange c4Graph 0 2 c4Keep)
        (GetID (stablePartitionRange c4Graph 0 2 c4Keep)
          (addrOfIndex (stablePartitionRange c4Graph 0 2 c4Keep) 0)) =
      some ⟨⟨1, 1⟩, 0⟩ :=
  (getID_lookup_identity c4Graph 0 2 c4Keep).2 0 (by decide)

/-- C5: in a graph constructed from edges whose targets are all valid, every
edge obtained through the per-node edge iteration has
`target < NumberOfNodes()`; and the construction stores the edge list
unchanged, so self-loops and duplicates are kept, not removed. -/
theorem edge_targets_in_range (coords : List Coordinate) (es : List BisectionEdge)
    (hT : ∀ e ∈ es, e.target < coords.length) (i : Nat) (ed : BisectionEdge)
    (he : ed ∈ edgesOf (makeBisectionGraph coords es) i) :
    ed.target < NumberOfNodes (makeBisectionGraph coords es) ∧
      (makeBisectionGraph coords es).edges = es := by
  refine ⟨?_, rfl⟩
  have hmem : ed ∈ (makeBisectionGraph coords es).edges :=
    List.drop_subset _ _ (List.take_subset _ _ he)
  have hlen : NumberOfNodes (makeBisectionGraph coords es) = coords.length := by
    simp [NumberOfNodes, makeBisectionGraph, List.enum_length]
  rw [hlen]
  exact hT ed hmem

/-- Witness for C5 on a two-node graph with a self-loop and a duplicated
edge. -/
theorem edge_targets_in_range_witness :
    (0 : Nat) <
        NumberOfNodes (makeBisectionGraph [⟨0, 0⟩, ⟨1, 1⟩] [⟨0, 0⟩, ⟨0, 1⟩, ⟨0, 1⟩]) ∧
      (makeBisectionGraph [⟨0, 0⟩, ⟨1, 1⟩] [⟨0, 0⟩, ⟨0, 1⟩, ⟨0, 1⟩]).edges =
        [⟨0, 0⟩, ⟨0, 1⟩, ⟨0, 1⟩] :=
  edge_targets_in_range [⟨0, 0⟩, ⟨1, 1⟩] [⟨0, 0⟩, ⟨0, 1⟩, ⟨0, 1⟩]
    (by decide) 0 ⟨0, 0⟩ (by decide)

/-- Modelled from the spec: a `GraphView` wraps a `BisectionGraph` reference
and a `[vbegin, vend)` index range over the node array; constructing one
copies nothing. -/
structure GraphView where
  graph : BisectionGraph
  vbegin : Nat
  vend : Nat

/-- `NumberOfNodes()` of a view: the size of its range. -/
def viewNumberOfNodes (gv : GraphView) : Nat := gv.vend - gv.vbegin

/-- Modelled from the spec: edge iteration of a view for a node delegates to
the underlying `BisectionGraph` unrestricted — no filtering by range. -/
def viewEdges (gv : GraphView) (i : Nat) : List BisectionEdge :=
  edgesOf gv.graph i

/-- C8: for a node inside a view's range, the view's edge iteration yields
exactly the node's full outgoing edge set of the underlying graph; in
particular every edge whose target lies outside `[vbegin, vend)` is still
yielded — the view filters nothing. -/
theorem view_edges_unfiltered (gv : GraphView) (i : Nat)
    (_hlo : gv.vbegin ≤ i) (_hhi : i < gv.vend) :
    viewEdges gv i = edgesOf gv.graph i ∧
      ∀ ed ∈ edgesOf gv.graph i,
        ¬(gv.vbegin ≤ ed.target ∧ ed.target < gv.vend) → ed ∈ viewEdges gv i := by
  refine ⟨rfl, ?_⟩
  intro ed hed _
  exact hed

/-- Witness for C8: a view over `[0, 1)` of a two-node graph whose node 0
has an edge targeting node 1, outside the range; the view still yields it. -/
theorem view_edges_unfiltered_witness :
    viewEdges ⟨makeBisectionGraph [⟨0, 0⟩, ⟨1, 1⟩] [⟨0, 1⟩], 0, 1⟩ 0 =
        edgesOf (makeBisectionGraph [⟨0, 0⟩, ⟨1, 1⟩] [⟨0, 1⟩]) 0 ∧
      ∀ ed ∈ edgesOf (makeBisectionGraph [⟨0, 0⟩, ⟨1, 1⟩] [⟨0, 1⟩]) 0,
        ¬((0 : Nat) ≤ ed.target ∧ ed.target < 1) →
          ed ∈ viewEdges ⟨makeBisectionGraph [⟨0, 0⟩, ⟨1, 1⟩] [⟨0, 1⟩], 0, 1⟩ 0 :=
  view_edges_unfiltered ⟨makeBisectionGraph [⟨0, 0⟩, ⟨1, 1⟩] [⟨0, 1⟩], 0, 1⟩ 0
    (by decide) (by decide)

/-- Modelled from the spec: one split step of `RecursiveBisectionState` on
the multiset of current leaf ranges — a range `(b, e)` is replaced by its
two children `(b, mid)` and `(mid, e)` for the Bisector's split point
`b ≤ mid ≤ e`; all other leaf ranges are untouched. -/
inductive SplitStep : List (Nat × Nat) → List (Nat × Nat) → Prop
  | split (pre post : List (Nat × Nat)) (b mid e : Nat)
      (hbm : b ≤ mid) (hme : mid ≤ e) :
      SplitStep (pre ++ (b, e) :: post) (pre ++ (b, mid) :: (mid, e) :: post)

/-- Leaf-range lists reachable by the recursion from the root view
`[0, N)`, under any recursion depth bound and minimum cell size (those only
restrict which splits occur, never add others). -/
def ReachableLeaves (N : Nat) (L : List (Nat × Nat)) : Prop :=
  Relation.ReflTransGen SplitStep [(0, N)] L

/-- The leaf list is a gap-free chain of adjacent ranges from `a` to `z`. -/
def rangesChain : List (Nat × Nat) → Nat → Nat → Prop
  | [], a, z => a = z
  | p :: rest, a, z => p.1 = a ∧ a ≤ p.2 ∧ rangesChain rest p.2 z

theorem rangesChain_le {L : List (Nat × Nat)} {a z : Nat}
    (h : rangesChain L a z) : a ≤ z := by
  induction L generalizing a with
  | nil => exact Nat.le_of_eq h
  | cons p rest ih =>
    obtain ⟨_, hle, hrest⟩ := h
    exact le_trans hle (ih hrest)

theorem rangesChain_start_le {L : List (Nat × Nat)} {a z : Nat}
    (h : rangesChain L a z) : ∀ q ∈ L, a ≤ q.1 ∧ q.2 ≤ z := by
  induction L generalizing a with
  | nil => intro q hq; cases hq
  | cons p rest ih =>
    obtain ⟨h1, hle, hrest⟩ := h
    intro q hq
    rcases List.mem_cons.mp hq with rfl | hq
    · refine ⟨le_of_eq h1.symm, ?_⟩
      have := rangesChain_le hrest
      omega
    · have := ih hrest q hq
      omega

theorem rangesChain_insert {pre post : List (Nat × Nat)} {a z b mid e : Nat}
    (h : rangesChain (pre ++ (b, e) :: post) a z) (hbm : b ≤ mid) (hme : mid ≤ e) :
    rangesChain (pre ++ (b, mid) :: (mid, e) :: post) a z := by
  induction pre generalizing a with
  | nil =>
    obtain ⟨h1, hle, hrest⟩ := h
    simp only [List.nil_append] at *
    exact ⟨h1, by omega, rfl, hme, hrest⟩
  | cons p pre ih =>
    obtain ⟨h1, hle, hrest⟩ := h
    exact ⟨h1, hle, ih hrest⟩

theorem rangesChain_mem_iff {L : List (Nat × Nat)} {a z : Nat}
    (h : rangesChain L a z) :
    ∀ n, (a ≤ n ∧ n < z) ↔ ∃ p ∈ L, p.1 ≤ n ∧ n < p.2 := by
  induction L generalizing a with
  | nil =>
    intro n
    have hz : a = z := h
    simp only [List.not_mem_nil, false_and, exists_false, iff_false]
    omega
  | cons p rest ih =>
    obtain ⟨h1, hle, hrest⟩ := h
    intro n
    have hez := rangesChain_le hrest
    constructor
    · rintro ⟨han, hnz⟩
      by_cases hn : n < p.2
      · exact ⟨p, List.mem_cons_self p rest, by omega, hn⟩
      · obtain ⟨q, hq, hq1, hq2⟩ := (ih hrest n).mp (by omega)
        exact ⟨q, List.mem_cons_of_mem p hq, hq1, hq2⟩
    · rintro ⟨q, hq, hq1, hq2⟩
      rcases List.mem_cons.mp hq with rfl | hq
      · omega
      · have := rangesChain_start_le hrest q hq
        have := (ih hrest n).mpr ⟨q, hq, hq1, hq2⟩
        omega

theorem rangesChain_pairwise {L : List (Nat × Nat)} {a z : Nat}
    (h : rangesChain L a z) : L.Pairwise (fun p q => p.2 ≤ q.1) := by
  induction L generalizing a with
  | nil => exact List.Pairwise.nil
  | cons p rest ih =>
    obtain ⟨_, _, hrest⟩ := h
    refine List.Pairwise.cons ?_ (ih hrest)
    intro q hq
    exact (rangesChain_start_le hrest q hq).1

theorem reachable_chain {N : Nat} {L : List (Nat × Nat)}
    (h : ReachableLeaves N L) : rangesChain L 0 N := by
  induction h with
  | refl => exact ⟨rfl, Nat.zero_le N, rfl⟩
  | tail _ hstep ih =>
    cases hstep with
    | split pre post b mid e hbm hme => exact rangesChain_insert ih hbm hme

/-- C6: at every point of the recursion — i.e. for every leaf-range list
reachable from the root view by split steps — the leaf `GraphView` ranges
partition `[0, N)` exactly: a node index is below `N` iff exactly some leaf
range contains it, and the ranges are pairwise disjoint (each ends before
the next begins). -/
theorem leaf_ranges_partition (N : Nat) (L : List (Nat × Nat))
    (h : ReachableLeaves N L) :
    (∀ n, n < N ↔ ∃ p ∈ L, p.1 ≤ n ∧ n < p.2) ∧
      L.Pairwise (fun p q => p.2 ≤ q.1) := by
  have hc := reachable_chain h
  refine ⟨fun n => ?_, rangesChain_pairwise hc⟩
  have := rangesChain_mem_iff hc n
  constructor
  · intro hn; exact this.mp ⟨Nat.zero_le n, hn⟩
  · intro hex; exact (this.mpr hex).2

/-- Witness for C6: after splitting `[0, 4)` at 2 and the left child at 1,
the leaves `[0,1), [1,2), [2,4)` partition `[0, 4)`. -/
theorem leaf_ranges_partition_witness :
    (∀ n, n < 4 ↔ ∃ p ∈ [((0 : Nat), (1 : Nat)), (1, 2), (2, 4)], p.1 ≤ n ∧ n < p.2) ∧
      List.Pairwise (fun p q => p.2 ≤ q.1) [((0 : Nat), (1 : Nat)), (1, 2), (2, 4)] :=
  leaf_ranges_partition 4 [(0, 1), (1, 2), (2, 4)]
    (Relation.ReflTransGen.tail
      (Relation.ReflTransGen.single (SplitStep.split [] [] 0 2 4 (by omega) (by omega)))
      (SplitStep.split [] [(2, 4)] 0 1 2 (by omega) (by omega)))

/-- Modelled from the spec: a candidate cut produced by one max-flow run of
the Bisector — its cut-edge count and the size of its left side (the right
side has the remaining `n - leftSize` nodes of the view). -/
structure CutCandidate where
  cutSize : Nat
  leftSize : Nat
deriving Repr, DecidableEq

/-- Lower balance bound `⌈n * (1/2 - ε)⌉`. -/
def balLo (n : Nat) (eps : ℚ) : Int := ⌈(n : ℚ) * (1 / 2 - eps)⌉

/-- Upper balance bound `⌊n * (1/2 + ε)⌋`. -/
def balHi (n : Nat) (eps : ℚ) : Int := ⌊(n : ℚ) * (1 / 2 + eps)⌋

/-- A candidate satisfies the balance constraint when both side sizes lie in
`[⌈n(1/2-ε)⌉, ⌊n(1/2+ε)⌋]`. -/
def isBalanced (n : Nat) (eps : ℚ) (c : CutCandidate) : Bool :=
  decide (balLo n eps ≤ (c.leftSize : Int) ∧ (c.leftSize : Int) ≤ balHi n eps ∧
    balLo n eps ≤ ((n - c.leftSize : Nat) : Int) ∧ ((n - c.leftSize : Nat) : Int) ≤ balHi n eps)

/-- Distance of a candidate's split from the exact 50/50 balance (scaled by
two to stay integral). -/
def imbalanceOf (n : Nat) (c : CutCandidate) : Nat := (2 * (c.leftSize : Int) - n).natAbs

/-- Modelled from the spec: the Bisector's scoring rule over the candidate
cuts of a view of `n` nodes — the smallest cut among candidates satisfying
the balance constraint; if none does, the closest-to-balance candidate is
chosen and flagged as a degraded split. -/
def selectSplit (n : Nat) (eps : ℚ) (cands : List CutCandidate) :
    Option (CutCandidate × Bool) :=
  match (cands.filter (isBalanced n eps)).argmin CutCandidate.cutSize with
  | some c => some (c, false)
  | none => (cands.argmin (imbalanceOf n)).map (fun c => (c, true))

/-- C7: every split the Bisector selects either has both side sizes within
the balance interval `[⌈n(1/2-ε)⌉, ⌊n(1/2+ε)⌋]` or is flagged as
degraded. -/
theorem split_balanced_or_degraded (n : Nat) (eps : ℚ) (cands : List CutCandidate)
    (c : CutCandidate) (deg : Bool) (h : selectSplit n eps cands = some (c, deg)) :
    deg = true ∨
      (balLo n eps ≤ (c.leftSize : Int) ∧ (c.leftSize : Int) ≤ balHi n eps ∧
        balLo n eps ≤ ((n - c.leftSize : Nat) : Int) ∧
        ((n - c.leftSize : Nat) : Int) ≤ balHi n eps) := by
  unfold selectSplit at h
  cases ha : (cands.filter (isBalanced n eps)).argmin CutCandidate.cutSize with
  | some c0 =>
    rw [ha] at h
    simp only [Option.some.injEq, Prod.mk.injEq] at h
    obtain ⟨rfl, rfl⟩ := h
    right
    have hm : c0 ∈ cands.filter (isBalanced n eps) := List.argmin_mem ha
    have hb : isBalanced n eps c0 = true := List.of_mem_filter hm
    simpa [isBalanced] using hb
  | none =>
    rw [ha] at h
    left
    cases hb : cands.argmin (imbalanceOf n) with
    | none => rw [hb] at h; cases h
    | some c1 =>
      rw [hb, show Option.map (fun c => (c, true)) (some c1) = some (c1, true) from rfl] at h
      simp only [Option.some.injEq, Prod.mk.injEq] at h
      exact h.2.symm

/-- Witness for C7: a view of 10 nodes with tolerance `1/10` and one
candidate of left size 5 — the split is selected undegraded and both sides
lie within `[4, 6]`. -/
theorem split_balanced_or_degraded_witness :
    false = true ∨
      (balLo 10 (1 / 10) ≤ ((5 : Nat) : Int) ∧ ((5 : Nat) : Int) ≤ balHi 10 (1 / 10) ∧
        balLo 10 (1 / 10) ≤ ((10 - 5 : Nat) : Int) ∧
        ((10 - 5 : Nat) : Int) ≤ balHi 10 (1 / 10)) :=
  split_balanced_or_degraded 10 (1 / 10) [⟨2, 5⟩] ⟨2, 5⟩ false (by with_unfolding_all rfl)

theorem make_edges (coords : List Coordinate) (bs : List BisectionEdge) :
    (makeBisectionGraph coords bs).edges = bs := rfl

theorem nodeEdgeBegin_make (coords : List Coordinate) (bs : List BisectionEdge) (i : Nat) :
    nodeEdgeBegin (makeBisectionGraph coords bs) i =
      if i < coords.length then firstEdgeIndex bs i else bs.length := by
  unfold nodeEdgeBegin makeBisectionGraph
  simp only [List.get?_map, List.get?_enum]
  by_cases hi : i < coords.length
  · rw [if_pos hi, List.get?_eq_get hi]
    rfl
  · rw [if_neg hi, List.get?_eq_none.mpr (le_of_not_lt hi)]
    rfl

theorem edgesOf_make_out (coords : List Coordinate) (bs : List BisectionEdge) (i : Nat)
    (hi : coords.length ≤ i) :
    edgesOf (makeBisectionGraph coords bs) i = [] := by
  unfold edgesOf
  rw [make_edges, nodeEdgeBegin_make, nodeEdgeBegin_make,
    if_neg (by omega), if_neg (by omega)]
  simp [List.drop_length]

theorem sorted_slice_eq_filter (bs : List BisectionEdge) (i : Nat)
    (hs : bs.Pairwise (fun a b => a.source ≤ b.source)) :
    (bs.drop (firstEdgeIndex bs i)).take
        (firstEdgeIndex bs (i + 1) - firstEdgeIndex bs i) =
      bs.filter (fun e => e.source = i) := by
  induction bs with
  | nil => simp [firstEdgeIndex]
  | cons a bs ih =>
    have ha : ∀ b ∈ bs, a.source ≤ b.source := (List.pairwise_cons.mp hs).1
    have hs' : bs.Pairwise (fun a b => a.source ≤ b.source) := (List.pairwise_cons.mp hs).2
    rcases Nat.lt_trichotomy a.source i with hlt | heq | hgt
    · have h1 : firstEdgeIndex (a :: bs) i = firstEdgeIndex bs i + 1 := by
        simp [firstEdgeIndex, List.countP_cons, hlt]
      have h2 : firstEdgeIndex (a :: bs) (i + 1) = firstEdgeIndex bs (i + 1) + 1 := by
        have hlt1 : a.source < i + 1 := by omega
        simp [firstEdgeIndex, List.countP_cons, hlt1]
      have hne : ¬(a.source = i) := by omega
      rw [h1, h2, List.drop_succ_cons,
        show firstEdgeIndex bs (i + 1) + 1 - (firstEdgeIndex bs i + 1)
            = firstEdgeIndex bs (i + 1) - firstEdgeIndex bs i by omega,
        List.filter_cons_of_neg (by simpa using hne)]
      exact ih hs'
    · have h0 : firstEdgeIndex bs i = 0 := by
        rw [firstEdgeIndex, List.countP_eq_zero]
        intro b hb
        have hab := ha b hb
        simp only [decide_eq_true_eq]
        omega
      have h1 : firstEdgeIndex (a :: bs) i = 0 := by
        simp [firstEdgeIndex, List.countP_cons, heq] at *
        simpa [firstEdgeIndex] using h0
      have h2 : firstEdgeIndex (a :: bs) (i + 1) = firstEdgeIndex bs (i + 1) + 1 := by
        have hlt1 : a.source < i + 1 := by omega
        simp [firstEdgeIndex, List.countP_cons, hlt1]
      rw [h1, h2, List.drop_zero, Nat.sub_zero, List.take_succ_cons,
        List.filter_cons_of_pos (by simpa using heq)]
      congr 1
      have hbs := ih hs'
      rw [h0, List.drop_zero, Nat.sub_zero] at hbs
      exact hbs
    · have hall : ∀ b ∈ bs, i < b.source := fun b hb => lt_of_lt_of_le hgt (ha b hb)
      have h1 : firstEdgeIndex (a :: bs) i = 0 := by
        rw [firstEdgeIndex, List.countP_eq_zero]
        intro b hb
        simp only [decide_eq_true_eq]
        rcases List.mem_cons.mp hb with rfl | hb
        · omega
        · have := hall b hb; omega
      have h2 : firstEdgeIndex (a :: bs) (i + 1) = 0 := by
        rw [firstEdgeIndex, List.countP_eq_zero]
        intro b hb
        simp only [decide_eq_true_eq]
        rcases List.mem_cons.mp hb with rfl | hb
        · omega
        · have := hall b hb; omega
      rw [h1, h2]
      simp only [Nat.sub_zero, List.drop_zero, List.take_zero]
      symm
      rw [List.filter_eq_nil_iff]
      intro b hb
      simp only [decide_eq_true_eq]
      rcases List.mem_cons.mp hb with rfl | hb
      · omega
      · have := hall b hb; omega

theorem edgesOf_make_eq_filter (coords : List Coordinate) (bs : List BisectionEdge)
    (hsrc : ∀ e ∈ bs, e.source < coords.length)
    (hs : bs.Pairwise (fun a b => a.source ≤ b.source)) (i : Nat)
    (hi : i < coords.length) :
    edgesOf (makeBisectionGraph coords bs) i = bs.filter (fun e => e.source = i) := by
  unfold edgesOf
  rw [make_edges, nodeEdgeBegin_make, nodeEdgeBegin_make, if_pos hi]
  by_cases hi1 : i + 1 < coords.length
  · rw [if_pos hi1]
    exact sorted_slice_eq_filter bs i hs
  · rw [if_neg hi1]
    have hlen : bs.length = firstEdgeIndex bs (i + 1) := by
      rw [firstEdgeIndex]
      symm
      rw [List.countP_eq_length]
      intro e he
      have := hsrc e he
      simp only [decide_eq_true_eq]
      omega
    rw [hlen]
    exact sorted_slice_eq_filter bs i hs

theorem groupEdgesBySource_perm (es : List EdgeWithSomeAdditionalData) :
    (groupEdgesBySource es).Perm es :=
  List.mergeSort_perm es _

theorem groupEdgesBySource_sorted (es : List EdgeWithSomeAdditionalData) :
    (groupEdgesBySource es).Pairwise (fun a b => a.source ≤ b.source) := by
  have hsorted := @List.sorted_mergeSort EdgeWithSomeAdditionalData
    (fun a b => decide (a.source ≤ b.source))
    (fun a b c hab hbc => by
      simp only [decide_eq_true_eq] at *
      omega)
    (fun a b => by
      simp only [Bool.or_eq_true, decide_eq_true_eq]
      omega)
    es
  exact hsorted.imp (fun h => by simpa using h)

theorem adapted_sorted (es : List EdgeWithSomeAdditionalData) :
    (adaptToBisectionEdge (groupEdgesBySource es)).Pairwise
      (fun a b => a.source ≤ b.source) := by
  unfold adaptToBisectionEdge
  exact List.Pairwise.map _ (fun a b h => h) (groupEdgesBySource_sorted es)

theorem adapted_sources_lt {coords : List Coordinate}
    {es : List EdgeWithSomeAdditionalData}
    (hsrc : ∀ e ∈ es, e.source < coords.length) :
    ∀ e ∈ adaptToBisectionEdge (groupEdgesBySource es), e.source < coords.length := by
  intro e he
  unfold adaptToBisectionEdge at he
  obtain ⟨e0, he0, rfl⟩ := List.mem_map.mp he
  exact hsrc e0 ((groupEdgesBySource_perm es).mem_iff.mp he0)

/-- C10: constructing the graph from any permutation of the edge input,
after `groupEdgesBySource` and `adaptToBisectionEdge`, yields for every node
the same multiset of outgoing `(source, target)` edges as constructing from
the original list — construction is invariant under the initial edge
order. -/
theorem construction_order_invariant (coords : List Coordinate)
    (es1 es2 : List EdgeWithSomeAdditionalData) (hperm : es2.Perm es1)
    (hsrc : ∀ e ∈ es1, e.source < coords.length) (i : Nat) :
    (edgesOf (makeBisectionGraph coords
        (adaptToBisectionEdge (groupEdgesBySource es2))) i).Perm
      (edgesOf (makeBisectionGraph coords
        (adaptToBisectionEdge (groupEdgesBySource es1))) i) := by
  have hsrc2 : ∀ e ∈ es2, e.source < coords.length :=
    fun e he => hsrc e (hperm.mem_iff.mp he)
  by_cases hi : i < coords.length
  · rw [edgesOf_make_eq_filter coords _ (adapted_sources_lt hsrc2) (adapted_sorted es2) i hi,
      edgesOf_make_eq_filter coords _ (adapted_sources_lt hsrc) (adapted_sorted es1) i hi]
    apply List.Perm.filter
    unfold adaptToBisectionEdge
    exact ((groupEdgesBySource_perm es2).map _).trans
      ((hperm.map _).trans ((groupEdgesBySource_perm es1).map _).symm)
  · rw [edgesOf_make_out coords _ i (le_of_not_lt hi),
      edgesOf_make_out coords _ i (le_of_not_lt hi)]

/-- Witness for C10: a three-edge list with a self-loop, against a rotation
of itself. -/
theorem construction_order_invariant_witness :
    (edgesOf (makeBisectionGraph [⟨0, 0⟩, ⟨1, 1⟩]
        (adaptToBisectionEdge (groupEdgesBySource
          [⟨0, 0, 7⟩, ⟨0, 1, 5⟩, ⟨1, 0, 6⟩]))) 0).Perm
      (edgesOf (makeBisectionGraph [⟨0, 0⟩, ⟨1, 1⟩]
        (adaptToBisectionEdge (groupEdgesBySource
          [⟨0, 1, 5⟩, ⟨1, 0, 6⟩, ⟨0, 0, 7⟩]))) 0) :=
  construction_order_invariant [⟨0, 0⟩, ⟨1, 1⟩]
    [⟨0, 1, 5⟩, ⟨1, 0, 6⟩, ⟨0, 0, 7⟩] [⟨0, 0, 7⟩, ⟨0, 1, 5⟩, ⟨1, 0, 6⟩]
    (by decide) (by decide) 0
